import Mathlib

/-!
# Verification of the jake-bot-3000 pixel/path pipeline

Shallow embedding of the color matching utilities (`src/jake_v2/color_utils.py`),
the smart pixel selector (`src/jake_v2/pixel_selection.py`) and the human mouse
path finder (`src/jake_v2/path/human_path_finder.py`).

Modelling conventions:
* Machine floats are modelled by exact rationals `ℚ`; integer pixel data by `ℕ`/`ℤ`.
* Euclidean distances are represented by their squares (`d ≤ t ↔ d² ≤ t²` for
  `t ≥ 0`), which keeps every definition executable over `ℚ`/`ℤ`.
* A Python exception is modelled by `Option.none` / a total function that
  returns an explicit empty result, matching each `try/except` of the source.
* `random.choice`/`random.choices` draws are modelled by an explicit index
  parameter `pick`: the drawn element is `l.getD (pick % l.length) _`, which
  ranges over exactly the support of the library call.
-/

/-- A pixel coordinate `(x, y)`. -/

abbrev Pix : Type := ℕ × ℕ

/-- A color triple.  Depending on context it holds RGB or BGR channel values
(OpenCV frames are BGR). -/

abbrev Color : Type := ℕ × ℕ × ℕ

/-- All grid cells of a `W × H` image in raster (row-major) order, the order in
which `np.where` enumerates mask pixels. -/

def cellsOf (W H : ℕ) : List Pix :=
  ((List.range H).map fun y => (List.range W).map fun x => (x, y)).flatten

/-- A frame is a list of rows of color triples (stored in OpenCV BGR order). -/

abbrev Frame : Type := List (List Color)

/-- Channel triple of the frame at `(x, y)` (BGR, as stored). -/

def pixelAt (fr : Frame) (p : Pix) : Color := (fr.getD p.2 []).getD p.1 (0, 0, 0)

/-- Frame width (length of a row). -/

def frameW (fr : Frame) : ℕ := (fr.headD []).length

/-- Frame height (number of rows). -/

def frameH (fr : Frame) : ℕ := fr.length

/-- Swap the first and third channel: converts between RGB and BGR, as
`cv2.cvtColor(..., COLOR_BGR2RGB)` and the explicit `target_bgr` swap in
`find_pixels_by_color` do. -/

def swapRB {α : Type} (c : α × α × α) : α × α × α := (c.2.2, c.2.1, c.1)

/-- First position (0-based) at which `p` holds, if any.  Used to model
index-based relabelling of blobs and membership lookups. -/

def firstIdx {α : Type} (p : α → Bool) : List α → Option ℕ
  | [] => none
  | a :: as => if p a then some 0 else (firstIdx p as).map (· + 1)

/-! ## `color_utils.py` -/

/-- Hexadecimal digit test: the digit characters accepted by Python
`int(s, 16)` (restricted to ASCII, the only digits a hex color string can
hold), as fed to it by `hex_to_rgb` (`src/jake_v2/color_utils.py`). -/

def isHexDigit (c : Char) : Bool :=
  ('0' ≤ c && c ≤ '9') || ('a' ≤ c && c ≤ 'f') || ('A' ≤ c && c ≤ 'F')

/-- Value of a hexadecimal digit. -/

def hexDigitVal (c : Char) : ℕ :=
  if '0' ≤ c ∧ c ≤ '9' then c.toNat - '0'.toNat
  else if 'a' ≤ c ∧ c ≤ 'f' then c.toNat - 'a'.toNat + 10
  else if 'A' ≤ c ∧ c ≤ 'F' then c.toNat - 'A'.toNat + 10
  else 0

/-- The ASCII whitespace characters Python `int()` strips from both ends of
its argument. -/

def pySpace (c : Char) : Bool :=
  c = ' ' || c = '\t' || c = '\n' || c = '\r' || c = '\x0b' || c = '\x0c'

/-- Value of a nonempty run of hex digits. -/

def hexRunVal (cs : List Char) : ℕ :=
  cs.foldl (fun a c => a * 16 + hexDigitVal c) 0

/-- Python `int(s, 16)` on a short slice (at most two characters, the only
shapes `hex_to_rgb` produces): strip ASCII whitespace at both ends, accept
one optional sign (`int('+F', 16) = 15`, `int('-F', 16) = -15`), then
require a nonempty run of hex digits.  `none` models the `ValueError` on
anything else.  (The `0x` prefix and the digit-group underscores `int()`
also accepts need at least three characters and cannot occur in a
two-character slice; non-ASCII digits cannot occur in a color string.) -/

def parseHexInt (cs : List Char) : Option ℤ :=
  match ((cs.dropWhile pySpace).reverse.dropWhile pySpace).reverse with
  | [] => none
  | '+' :: rest =>
      if rest ≠ [] ∧ rest.all isHexDigit then some (hexRunVal rest : ℤ)
      else none
  | '-' :: rest =>
      if rest ≠ [] ∧ rest.all isHexDigit then some (-(hexRunVal rest : ℤ))
      else none
  | c :: rest =>
      if (c :: rest).all isHexDigit then some (hexRunVal (c :: rest) : ℤ)
      else none

/-- Python slice `cs[a:b]` (clamped, never raising). -/

def pySlice (cs : List Char) (a b : ℕ) : List Char := (cs.drop a).take (b - a)

/-- `hex_color.lstrip('#')`: drop all leading `'#'` characters. -/

def stripHash (s : String) : List Char := s.data.dropWhile fun c => c = '#'

/-- `hex_to_rgb` (`src/jake_v2/color_utils.py`): strips `'#'`, then parses
the slices `[0:2]`, `[2:4]`, `[4:6]` with `int(..., 16)`.  `none` models the
`ValueError` on an unparsable slice; signed slices make a channel negative,
exactly as in Python.  Characters beyond index 6 are never examined (Python
slicing silently truncates). -/

def hexToRgb (s : String) : Option (ℤ × ℤ × ℤ) :=
  match parseHexInt (pySlice (stripHash s) 0 2),
      parseHexInt (pySlice (stripHash s) 2 4),
      parseHexInt (pySlice (stripHash s) 4 6) with
  | some r, some g, some b => some (r, g, b)
  | _, _, _ => none

/-- The integer view of a pixel color triple. -/

def intColor (c : Color) : ℤ × ℤ × ℤ := ((c.1 : ℤ), (c.2.1 : ℤ), (c.2.2 : ℤ))

/-- Squared Euclidean distance between two color triples:
`calculate_color_distance` (`src/jake_v2/color_utils.py`) returns the square
root of this value; all comparisons in the source are against nonnegative
tolerances, so the squared form is an exact order-faithful representation. -/

def calculateColorDistanceSq (c1 c2 : ℤ × ℤ × ℤ) : ℤ :=
  (c1.1 - c2.1) ^ 2 + (c1.2.1 - c2.2.1) ^ 2 + (c1.2.2 - c2.2.2) ^ 2

/-- `is_color_in_range` (`src/jake_v2/color_utils.py`): Euclidean color
distance at most `tol`.  This is also the spec's Color-Matcher contract
`matches(pixel_rgb, target_rgb, tolerance)`. -/

def isColorInRange (color target : Color) (tol : ℕ) : Bool :=
  decide (calculateColorDistanceSq (intColor color) (intColor target)
    ≤ (tol : ℤ) ^ 2)

/-- `colors_match` (`src/jake_v2/color_utils.py`): parses both hex strings and
compares Euclidean distance to `tol`; the surrounding `try/except` turns any
parse error into the return value `False`. -/

def colorsMatch (h1 h2 : String) (tol : ℕ) : Bool :=
  match hexToRgb h1, hexToRgb h2 with
  | some c1, some c2 => decide (calculateColorDistanceSq c1 c2 ≤ (tol : ℤ) ^ 2)
  | _, _ => false

/-- One channel of the `cv2.inRange` test of `find_pixels_by_color`:
`max(0, c - tol) ≤ v ≤ min(255, c + tol)`, the bounds the source computes
in Python before handing them to `cv2.inRange` (which compares them to the
pixel value exactly, as a per-channel scalar). -/

def chanInRange (v : ℕ) (c : ℤ) (tol : ℕ) : Bool :=
  decide (max 0 (c - (tol : ℤ)) ≤ (v : ℤ)) &&
    decide ((v : ℤ) ≤ min 255 (c + (tol : ℤ)))

/-- The per-channel box test applied by `find_pixels_by_color` to each BGR
pixel. -/

def inRangeB (pix : Color) (tgt : ℤ × ℤ × ℤ) (tol : ℕ) : Bool :=
  chanInRange pix.1 tgt.1 tol && chanInRange pix.2.1 tgt.2.1 tol &&
    chanInRange pix.2.2 tgt.2.2 tol

/-- `find_pixels_by_color` (`src/jake_v2/color_utils.py`): converts the hex
target to RGB, swaps to BGR, and collects (in raster order, as `np.where`
does) every pixel passing the **per-channel** `cv2.inRange` box test.  The
`try/except` turns a hex parse error into an empty result. -/

def findPixelsByColor (fr : Frame) (hex : String) (tol : ℕ) : List Pix :=
  match hexToRgb hex with
  | none => []
  | some rgb =>
      (cellsOf (frameW fr) (frameH fr)).filter fun p =>
        inRangeB (pixelAt fr p) (swapRB rgb) tol

/-! ## `path/human_path_finder.py`: k-nearest lookup over the trajectory bank -/

/-- Squared Euclidean distance between two displacement vectors (the KD-tree
metric of `HumanPath`, in squared, order-faithful form). -/

def dispDistSq (a b : ℚ × ℚ) : ℚ := (a.1 - b.1) ^ 2 + (a.2 - b.2) ^ 2

/-- Comparison of `(path index, squared distance)` pairs by distance. -/

def distPairLE : (ℕ × ℚ) → (ℕ × ℚ) → Prop := fun a b => a.2 ≤ b.2

instance : DecidableRel distPairLE :=
  fun a b => inferInstanceAs (Decidable (a.2 ≤ b.2))

instance : IsTotal (ℕ × ℚ) distPairLE := ⟨fun a b => le_total a.2 b.2⟩

instance : IsTrans (ℕ × ℚ) distPairLE := ⟨fun _ _ _ h1 h2 => le_trans h1 h2⟩

/-- All `(index, squared distance)` pairs of a displacement bank against a
query displacement. -/

def bankPairs (bank : List (ℚ × ℚ)) (d : ℚ × ℚ) : List (ℕ × ℚ) :=
  (List.range bank.length).map fun i => (i, dispDistSq (bank.getD i (0, 0)) d)

/-- The sorted, padded `(index, distance)` rows `scipy.spatial.KDTree.query`
produces for one query point: the neighbours sorted by ascending distance
and, when `k` exceeds the number of bank entries `n`, missing neighbours
padded with index `n` and infinite distance (modelled `none`).  Tie order
among equal distances is unspecified by scipy; the model sorts stably, and
no claim statement below depends on tie order. -/
def kdQueryPadded (bank : List (ℚ × ℚ)) (d : ℚ × ℚ) (k : ℕ) :
    List (ℕ × Option ℚ) :=
  ((List.insertionSort distPairLE (bankPairs bank d)).take k).map
      (fun e => (e.1, some e.2))
    ++ List.replicate (k - bank.length) (bank.length, none)

/-- `HumanPath.find_k_nearest_paths` (`src/jake_v2/path/human_path_finder.py`):
`list(zip(indices[0], distances[0]))` over `self.kd_tree.query([d], k=k)`.
When `k == 1` scipy squeezes the `k` dimension, so `indices[0]` and
`distances[0]` are numpy scalars and `zip` raises `TypeError` (modelled
`none`; the adjacent `find_closest_path`, which returns exactly those
scalars, relies on the same squeeze).  Otherwise the call returns the
sorted, padded rows. -/
def findKNearestPaths (bank : List (ℚ × ℚ)) (d : ℚ × ℚ) (k : ℕ) :
    Option (List (ℕ × Option ℚ)) :=
  if k == 1 then none else some (kdQueryPadded bank d k)

/-- Order on optional squared distances, `none` being the infinite padding
distance. -/

def optDistLE : Option ℚ → Option ℚ → Prop
  | some x, some y => x ≤ y
  | _, none => True
  | none, some _ => False

/-! ## `path/human_path_finder.py`: smoothing and path composition -/

/-- Python `int()` truncation toward zero applied to a rational. -/

def pyTrunc (q : ℚ) : ℤ := if 0 ≤ q then ⌊q⌋ else ⌈q⌉

/-- The slice window `path[max(0, i-1) : min(len, i+2)]` of
`HumanPath._smooth_path` at index `i` (default window size 3, half window 1);
`i - 1` is Nat subtraction, which is exactly the `max(0, ·)` clamp. -/

def smoothWindow (path : List (ℚ × ℚ)) (i : ℕ) : List (ℚ × ℚ) :=
  (path.drop (i - 1)).take (min path.length (i + 2) - (i - 1))

/-- Coordinate-wise average of a window of points. -/

def avgPoint (w : List (ℚ × ℚ)) : ℚ × ℚ :=
  ((w.map Prod.fst).sum / w.length, (w.map Prod.snd).sum / w.length)

/-- `HumanPath._smooth_path` with its default window size 3: paths shorter
than the window are returned unchanged, otherwise every point is replaced by
the average of its clamped 3-point window. -/

def smoothPath (path : List (ℚ × ℚ)) : List (ℚ × ℚ) :=
  if path.length < 3 then path
  else (List.range path.length).map fun i => avgPoint (smoothWindow path i)

/-- `HumanPath._build_single_path`, parametrised by the trajectory `path`
that `get_path_for_displacement` retrieved for the displacement (the
retrieval draws randomly among the k nearest bank entries; every theorem
below holds for each possible draw).  Applies smoothing when enabled, then
shifts each relative point by `start` and truncates with Python `int()`. -/

def buildSinglePath (start : ℤ × ℤ) (path : List (ℚ × ℚ)) (smoothing : Bool) :
    List (ℤ × ℤ) :=
  (if smoothing then smoothPath path else path).map fun r =>
    (pyTrunc ((start.1 : ℚ) + r.1), pyTrunc ((start.2 : ℚ) + r.2))

/-- Net displacement (last minus first point) of an integer path. -/

def netDisp (p : List (ℤ × ℤ)) : ℤ × ℤ :=
  ((p.getLastD (0, 0)).1 - (p.headD (0, 0)).1,
   (p.getLastD (0, 0)).2 - (p.headD (0, 0)).2)

/-- The displacement stored for a trajectory in the KD-tree index
(`HumanPath._load_paths`): end point minus start point. -/

def storedDisplacement (path : List (ℚ × ℚ)) : ℚ × ℚ :=
  ((path.getLastD (0, 0)).1 - (path.headD (0, 0)).1,
   (path.getLastD (0, 0)).2 - (path.headD (0, 0)).2)

/-- Squared distance between integer screen positions. -/

def posDistSq (a b : ℤ × ℤ) : ℤ := (a.1 - b.1) ^ 2 + (a.2 - b.2) ^ 2

/-- The `distance_to_target <= self.tolerance` test of
`HumanPath._build_iterative_path`: `sqrt d² ≤ tol` iff `0 ≤ tol ∧ d² ≤ tol²`,
written in exact cross-multiplied integer arithmetic
(`d² ≤ (num/den)² ↔ d²·den² ≤ num²`, since `den > 0`). -/

def withinTol (a b : ℤ × ℤ) (tol : ℚ) : Bool :=
  decide (0 ≤ tol.num) &&
    decide (posDistSq a b * (tol.den : ℤ) ^ 2 ≤ tol.num ^ 2)

/-- The loop of `HumanPath._build_iterative_path`, fuelled by the remaining
iteration budget.  `seg` abstracts `_build_single_path` (whose output draws a
random trajectory from the bank); the result pairs the accumulated path with
the number of segment retrievals performed.  The second tolerance test after
the segment append re-checks the *stale* distance computed at the top of the
loop body, exactly as the source does. -/

def buildIterGo (seg : ℤ × ℤ → ℤ × ℤ → List (ℤ × ℤ)) (target : ℤ × ℤ)
    (tol : ℚ) : ℕ → ℤ × ℤ → List (ℤ × ℤ) → List (ℤ × ℤ) × ℕ
  | 0, _, acc => (acc, 0)
  | fuel + 1, cur, acc =>
    if withinTol cur target tol then (acc ++ [target], 0)
    else
      let s := seg cur target
      if s.isEmpty then (acc, 1)
      else
        let acc2 := if acc.isEmpty then acc ++ s else acc ++ s.drop 1
        if withinTol cur target tol then (acc2 ++ [target], 1)
        else
          let r := buildIterGo seg target tol fuel (s.getLastD cur) acc2
          (r.1, r.2 + 1)

/-- `HumanPath._build_iterative_path`: the accumulated path. -/

def buildIterativePath (seg : ℤ × ℤ → ℤ × ℤ → List (ℤ × ℤ))
    (start target : ℤ × ℤ) (tol : ℚ) (maxIter : ℕ) : List (ℤ × ℤ) :=
  (buildIterGo seg target tol maxIter start []).1

/-- Number of segment retrievals (`_build_single_path` calls) a run performs. -/

def iterSegRetrievals (seg : ℤ × ℤ → ℤ × ℤ → List (ℤ × ℤ))
    (start target : ℤ × ℤ) (tol : ℚ) (maxIter : ℕ) : ℕ :=
  (buildIterGo seg target tol maxIter start []).2

/-! ## `pixel_selection.py`: blob segmentation, exclusion and selection -/

/-- Chebyshev closeness of two cells within radius `r`: `r = 1` is the
8-connectivity of `scipy.ndimage.label` with a 3×3 structuring element,
`r = 2` is membership in the 5×5 binary-dilation neighbourhood. -/

def chebNear (p q : Pix) (r : ℕ) : Bool :=
  decide (max p.1 q.1 - min p.1 q.1 ≤ r) && decide (max p.2 q.2 - min p.2 q.2 ≤ r)

/-- The mask cells of a `W × H` grid, in raster order. -/

def maskCells (m : Pix → Bool) (W H : ℕ) : List Pix := (cellsOf W H).filter m

/-- One BFS expansion step: adjoin every mask cell 8-adjacent to the current
component. -/

def growStep (cs : List Pix) (acc : List Pix) : List Pix :=
  acc ++ cs.filter fun q => !acc.contains q && acc.any fun p => chebNear p q 1

/-- Fuelled BFS saturation. -/

def growRec (cs : List Pix) : ℕ → List Pix → List Pix
  | 0, acc => acc
  | fuel + 1, acc => growRec cs fuel (growStep cs acc)

/-- The 8-connected component of `seed` within the mask cells; `W*H`
expansion steps always saturate. -/

def component (m : Pix → Bool) (W H : ℕ) (seed : Pix) : List Pix :=
  growRec (maskCells m W H) (W * H) [seed]

/-- Raster-order connected-component decomposition, modelling
`scipy.ndimage.label(target_mask, structure=np.ones((3,3)))`: components are
listed in raster order of their first (seed) cell, which is scipy's label
order. -/

def componentsGo (m : Pix → Bool) (W H : ℕ) :
    List Pix → List (List Pix) → List (List Pix)
  | [], acc => acc
  | c :: rest, acc =>
    if acc.flatten.contains c then componentsGo m W H rest acc
    else componentsGo m W H rest (acc ++ [component m W H c])

/-- All connected components of the mask. -/

def components (m : Pix → Bool) (W H : ℕ) : List (List Pix) :=
  componentsGo m W H (maskCells m W H) []

/-- scipy label of a cell: `1 +` the index of the first component containing
it, `0` (background) when none does. -/

def oldLabel (m : Pix → Bool) (W H : ℕ) (p : Pix) : ℕ :=
  match firstIdx (fun c => c.contains p) (components m W H) with
  | some i => i + 1
  | none => 0

/-- `np.bincount(labeled_blobs.flatten())[l]`: number of cells carrying
label `l`. -/

def bincount (m : Pix → Bool) (W H : ℕ) (l : ℕ) : ℕ :=
  ((cellsOf W H).filter fun p => oldLabel m W H p == l).length

/-- `min_pixels = 1000 // downsample_factor ** 2` (Python floor division). -/

def minPixels (f : ℕ) : ℕ := 1000 / (f * f)

/-- The original labels surviving the size filter, in increasing label
order — the order the relabelling loop of `smart_pixel_select` walks them. -/

def survivingLabels (m : Pix → Bool) (W H f : ℕ) : List ℕ :=
  (List.range' 1 (components m W H).length).filter fun l =>
    decide (minPixels f ≤ bincount m W H l)

/-- Relabelled blob map (`new_labeled_blobs`): label 0 is background,
surviving blobs are renumbered densely `1..N` in old-label order. -/

def newLabel (m : Pix → Bool) (W H f : ℕ) (p : Pix) : ℕ :=
  match firstIdx (fun l => l == oldLabel m W H p) (survivingLabels m W H f) with
  | some i => i + 1
  | none => 0

/-- `num_blobs` after the size filter. -/

def validBlobCount (m : Pix → Bool) (W H f : ℕ) : ℕ :=
  (survivingLabels m W H f).length

/-- Whether some exclusion (green) pixel falls in the border ring of blob
`i`: the 5×5 binary dilation of the blob minus the blob itself, intersected
with the exclusion mask (`np.any(green_mask & border_mask)`). -/

def ringHasExclusion (m g : Pix → Bool) (W H f : ℕ) (i : ℕ) : Bool :=
  (cellsOf W H).any fun p =>
    g p && !(newLabel m W H f p == i) &&
      (cellsOf W H).any fun q => newLabel m W H f q == i && chebNear p q 2

/-- `filtered_target_mask`: a pixel survives iff it belongs to a surviving
blob whose border ring holds no exclusion pixel. -/

def filteredMask (m g : Pix → Bool) (W H f : ℕ) (p : Pix) : Bool :=
  (List.range' 1 (validBlobCount m W H f)).any fun i =>
    newLabel m W H f p == i && !ringHasExclusion m g W H f i

/-- `np.where(filtered_target_mask)` zipped to `(x, y)`, raster order. -/

def candidatePixels (m g : Pix → Bool) (W H f : ℕ) : List Pix :=
  (cellsOf W H).filter (filteredMask m g W H f)

/-- The tail of `smart_pixel_select` after the masks: `None` when no
candidate survives; otherwise draw a candidate (the weighted
`random.choices` draw is modelled by the index `pick`) and, when
`downsample_factor > 1`, upsample to the block centre
`c * factor + factor // 2`. -/

def selectPix (m g : Pix → Bool) (W H f pick : ℕ) : Option Pix :=
  if (candidatePixels m g W H f).isEmpty then none
  else
    some (if 1 < f then
        (((candidatePixels m g W H f).getD
            (pick % (candidatePixels m g W H f).length) (0, 0)).1 * f + f / 2,
         ((candidatePixels m g W H f).getD
            (pick % (candidatePixels m g W H f).length) (0, 0)).2 * f + f / 2)
      else (candidatePixels m g W H f).getD
          (pick % (candidatePixels m g W H f).length) (0, 0))

/-- The RGB view of a BGR frame pixel (`cv2.cvtColor(..., COLOR_BGR2RGB)`). -/

def rgbAt (fr : Frame) (p : Pix) : Color := swapRB (pixelAt fr p)

/-- `target_mask` of `smart_pixel_select`: Euclidean color distance between
the pixel's RGB value and the target RGB at most `tol`. -/

def targetMask (fr : Frame) (rgb : Color) (tol : ℕ) (p : Pix) : Bool :=
  isColorInRange (rgbAt fr p) rgb tol

/-- `green_mask` of `smart_pixel_select`: `(g > 200) & (r < 20) & (b < 20)`. -/

def greenMask (fr : Frame) (p : Pix) : Bool :=
  decide (200 < (rgbAt fr p).2.1) && decide ((rgbAt fr p).1 < 20) &&
    decide ((rgbAt fr p).2.2 < 20)

/-- `smart_pixel_select` (`src/jake_v2/pixel_selection.py`) applied to the
already-downsampled frame (the `cv2.resize` preprocessing is outside the
model; `f` enters through the size threshold and the upsampling of the
returned coordinate, exactly as in the source). -/

def smartPixelSelect (fr : Frame) (rgb : Color) (tol f pick : ℕ) : Option Pix :=
  selectPix (targetMask fr rgb tol) (greenMask fr) (frameW fr) (frameH fr) f pick

/-- A 3×3 BGR frame: a green exclusion pixel at `(0,0)`, a single red target
pixel at `(1,1)` (whose 5×5 dilation ring covers the whole frame), black
elsewhere. -/

def exFrameC3 : Frame :=
  [[(0, 255, 0), (0, 0, 0), (0, 0, 0)],
   [(0, 0, 0), (0, 0, 255), (0, 0, 0)],
   [(0, 0, 0), (0, 0, 0), (0, 0, 0)]]

/-- Squared normalised distance of a candidate pixel from the frame centre
`(W // 2, H // 2)`: `((x - cx)/W)² + ((y - cy)/H)²`, the quantity whose
square root feeds the exponential decay weight of `smart_pixel_select`. -/

def normDistSq (W H : ℕ) (p : Pix) : ℚ :=
  (((p.1 : ℚ) - ((W / 2 : ℕ) : ℚ)) / (W : ℚ)) ^ 2 +
    (((p.2 : ℚ) - ((H / 2 : ℕ) : ℚ)) / (H : ℚ)) ^ 2

/-- The unnormalised selection weights of the candidates,
`exp(-center_falloff * sqrt(normDistSq))` in the source.  The
floating-point exponential is not representable over `ℚ`; the decay map is
abstracted as `E : ℚ → ℚ` applied to the squared normalised distance
(`E q` stands for `exp(-falloff·√q)` — strictly positive for the real
exponential, and possibly 0 when modelling float underflow). -/

def selectionWeights (E : ℚ → ℚ) (W H : ℕ) (cands : List Pix) : List ℚ :=
  cands.map fun p => E (normDistSq W H p)

/-- `probabilities` of `smart_pixel_select`: normalised by the total when it
is positive, otherwise the uniform fallback `np.ones(n)/n`. -/

def selectionProbs (E : ℚ → ℚ) (W H : ℕ) (cands : List Pix) : List ℚ :=
  if 0 < (selectionWeights E W H cands).sum then
    (selectionWeights E W H cands).map (· / (selectionWeights E W H cands).sum)
  else List.replicate cands.length (1 / (cands.length : ℚ))

/-- A 1×1 BGR frame holding a single red target pixel. -/

def exFrameC6 : Frame := [[(0, 0, 255)]]

theorem mem_cellsOf {W H : ℕ} {p : Pix} :
    p ∈ cellsOf W H ↔ p.1 < W ∧ p.2 < H := by
  cases p with
  | mk a b =>
    constructor
    · intro h
      rcases List.mem_flatten.mp h with ⟨l, hl, hal⟩
      rcases List.mem_map.mp hl with ⟨y, hy, rfl⟩
      rcases List.mem_map.mp hal with ⟨x, hx, hxy⟩
      have hx1 : x = a := congrArg Prod.fst hxy
      have hy1 : y = b := congrArg Prod.snd hxy
      subst hx1; subst hy1
      exact ⟨List.mem_range.mp hx, List.mem_range.mp hy⟩
    · rintro ⟨ha, hb⟩
      refine List.mem_flatten.mpr ⟨(List.range W).map fun x => (x, b), ?_, ?_⟩
      · exact List.mem_map.mpr ⟨b, List.mem_range.mpr hb, rfl⟩
      · exact List.mem_map.mpr ⟨a, List.mem_range.mpr ha, rfl⟩

theorem firstIdx_some {α : Type} {p : α → Bool} :
    ∀ {l : List α} {i : ℕ}, firstIdx p l = some i →
      i < l.length ∧ ∀ d : α, p (l.getD i d) = true := by
  intro l
  induction l with
  | nil => intro i h; simp [firstIdx] at h
  | cons a as ih =>
    intro i h
    by_cases hp : p a
    · simp [firstIdx, hp] at h
      subst h
      exact ⟨Nat.succ_pos _, fun d => by simpa [List.getD] using hp⟩
    · simp [firstIdx, hp] at h
      rcases h with ⟨j, hj, rfl⟩
      rcases ih hj with ⟨h1, h2⟩
      exact ⟨Nat.succ_lt_succ h1, fun d => by simpa [List.getD] using h2 d⟩

theorem firstIdx_none {α : Type} {p : α → Bool} :
    ∀ {l : List α}, (∀ x ∈ l, p x = false) → firstIdx p l = none := by
  intro l
  induction l with
  | nil => intro _; rfl
  | cons a as ih =>
    intro h
    have ha : p a = false := h a (List.mem_cons_self a as)
    simp [firstIdx, ha]
    exact ih fun x hx => h x (List.mem_cons_of_mem a hx)

theorem firstIdx_eq_of {α : Type} {p : α → Bool} :
    ∀ {l : List α} {i : ℕ} {d : α}, i < l.length → p (l.getD i d) = true →
      (∀ j < i, p (l.getD j d) = false) → firstIdx p l = some i := by
  intro l
  induction l with
  | nil => intro i d h; simp at h
  | cons a as ih =>
    intro i d hi hp hbefore
    cases i with
    | zero => simp [List.getD] at hp; simp [firstIdx, hp]
    | succ n =>
      have ha : p a = false := by
        have := hbefore 0 (Nat.succ_pos n)
        simpa [List.getD] using this
      have hn : n < as.length := Nat.lt_of_succ_lt_succ hi
      have hpn : p (as.getD n d) = true := by simpa [List.getD] using hp
      have hb : ∀ j < n, p (as.getD j d) = false := by
        intro j hj
        have := hbefore (j + 1) (Nat.succ_lt_succ hj)
        simpa [List.getD] using this
      simp [firstIdx, ha, ih hn hpn hb]

theorem dropWhile_head_false {α : Type} {p : α → Bool} :
    ∀ {l : List α} {a : α}, (l.dropWhile p).head? = some a → p a = false := by
  intro l
  induction l with
  | nil => intro a h; simp [List.dropWhile] at h
  | cons b t ih =>
    intro a h
    by_cases hb : p b
    · rw [List.dropWhile_cons_of_pos hb] at h
      exact ih h
    · rw [List.dropWhile_cons_of_neg hb] at h
      have hba : b = a := by simpa using h
      subst hba
      exact eq_false_of_ne_true hb

theorem dropWhile_take_dropWhile {α : Type} (p : α → Bool) (l : List α) (n : ℕ) :
    List.dropWhile p ((List.dropWhile p l).take n) = (List.dropWhile p l).take n := by
  cases hd : List.dropWhile p l with
  | nil => simp
  | cons a t =>
    have ha : p a = false := dropWhile_head_false (l := l) (by rw [hd]; rfl)
    cases n with
    | zero => simp
    | succ m =>
      rw [List.take_succ_cons, List.dropWhile_cons_of_neg (by simp [ha])]

theorem pySlice_take6 (cs : List Char) (a b : ℕ) (hb : b ≤ 6) :
    pySlice (cs.take 6) a b = pySlice cs a b := by
  unfold pySlice
  calc ((cs.take 6).drop a).take (b - a)
      = ((cs.drop a).take (6 - a)).take (b - a) := by rw [List.drop_take]
    _ = (cs.drop a).take (min (b - a) (6 - a)) := by rw [List.take_take]
    _ = (cs.drop a).take (b - a) := by rw [Nat.min_eq_left (by omega)]

/-- **C2 (counterexample).**  The claim states that `find_all` marks a pixel
iff its Euclidean RGB distance to the target is ≤ τ, "in particular, not a
per-channel box/Chebyshev test".  On a 1×1 BGR frame holding `(10,10,10)`
with target `"000000"` and τ = 10, `find_pixels_by_color` *does* report the
pixel (each channel is within ±10), although its Euclidean distance is
√300 ≈ 17.3 > 10, so the source implements a box test, not the claimed
Euclidean test. -/
theorem c2_color_match_counterexample :
    (0, 0) ∈ findPixelsByColor [[((10 : ℕ), 10, 10)]] "000000" 10 ∧
      isColorInRange (10, 10, 10) (0, 0, 0) 10 = false := by decide

/-- **C2 (amended).**  `find_pixels_by_color` marks a pixel true iff it lies in
the frame and each of its three (BGR) channels `v` satisfies the clamped box
test `max(0, c - τ) ≤ v ≤ min(255, c + τ)` against the corresponding target
channel `c` — a per-channel box test, not the Euclidean-distance test (the
Euclidean predicate `is_color_in_range` is used elsewhere, e.g. by
`smart_pixel_select` and `colors_match`). -/
theorem c2_box_match_amended (fr : Frame) (hex : String) (rgb : ℤ × ℤ × ℤ)
    (tol : ℕ) (p : Pix) (h : hexToRgb hex = some rgb) :
    p ∈ findPixelsByColor fr hex tol ↔
      p.1 < frameW fr ∧ p.2 < frameH fr ∧
        inRangeB (pixelAt fr p) (swapRB rgb) tol = true := by
  unfold findPixelsByColor
  rw [h]
  constructor
  · intro hp
    rcases List.mem_filter.mp hp with ⟨hc, hbx⟩
    rcases mem_cellsOf.mp hc with ⟨h1, h2⟩
    exact ⟨h1, h2, hbx⟩
  · rintro ⟨h1, h2, h3⟩
    exact List.mem_filter.mpr ⟨mem_cellsOf.mpr ⟨h1, h2⟩, h3⟩

theorem c2_box_match_amended_witness :
    hexToRgb "0A0A0A" = some ((10 : ℤ), 10, 10) ∧
      ((0, 0) ∈ findPixelsByColor [[((5 : ℕ), 5, 5)]] "0A0A0A" 10 ↔
        (0 : ℕ) < frameW [[((5 : ℕ), 5, 5)]] ∧
          (0 : ℕ) < frameH [[((5 : ℕ), 5, 5)]] ∧
          inRangeB (pixelAt [[((5 : ℕ), 5, 5)]] (0, 0))
            (swapRB ((10 : ℤ), 10, 10)) 10 = true) :=
  ⟨by decide, c2_box_match_amended _ _ _ _ _ (by decide)⟩

/-- **C9 (counterexample).**  The claim states that a hex string of incorrect
length or with non-hex digits always raises an input-validation error that is
surfaced to the caller, never silently truncated and never turned into a
non-match result.  But `hex_to_rgb("FF00FF00")` (8 characters) silently
truncates to the first six digits and returns `(255, 0, 255)`;
`hex_to_rgb("+F00FF")`, whose `'+'` is not a hex digit, parses fine because
Python `int(s, 16)` accepts a sign, so `colors_match("+F00FF", "0F00FF", 10)`
returns `True`; and `colors_match("ZZZZZZ", ...)` swallows the `ValueError`
in its `except` handler and returns `False` (a non-match result) instead of
surfacing it. -/
theorem c9_hex_validation_counterexample :
    hexToRgb "FF00FF00" = some ((255 : ℤ), 0, 255) ∧
      hexToRgb "+F00FF" = some ((15 : ℤ), 0, 255) ∧
      colorsMatch "+F00FF" "0F00FF" 10 = true ∧
      colorsMatch "ZZZZZZ" "000000" 10 = false := by decide

/-- **C9 (amended).**  Actual validation behaviour of the source: (i) a hex
string whose `'#'`-stripped form has at most 4 characters always raises
(`ValueError`, modelled `none`), because the blue slice `[4:6]` is empty;
(ii) characters beyond the first six are silently ignored — `hex_to_rgb`
returns the same result as on the string truncated to six characters (so
over-long strings never raise); (iii) `colors_match` catches the parse error
and returns `False` instead of surfacing it.  Slices adorned only with a
sign or whitespace (e.g. `"+F"`) parse successfully — `int(s, 16)` accepts
them — so such non-hex characters do not raise either (see the
counterexample). -/
theorem c9_hex_validation_amended :
    (∀ s : String, (stripHash s).length ≤ 4 → hexToRgb s = none) ∧
    (∀ s : String, hexToRgb s = hexToRgb (String.mk ((stripHash s).take 6))) ∧
    (∀ s1 s2 : String, ∀ tol : ℕ,
      hexToRgb s1 = none → colorsMatch s1 s2 tol = false) := by
  refine ⟨?_, ?_, ?_⟩
  · intro s h
    have hdrop : (stripHash s).drop 4 = [] := List.drop_eq_nil_of_le h
    have hsl : pySlice (stripHash s) 4 6 = [] := by
      unfold pySlice
      rw [hdrop, List.take_nil]
    unfold hexToRgb
    rw [hsl]
    cases parseHexInt (pySlice (stripHash s) 0 2) <;>
      cases parseHexInt (pySlice (stripHash s) 2 4) <;> rfl
  · intro s
    have hstrip : stripHash (String.mk ((stripHash s).take 6))
        = (stripHash s).take 6 := by
      unfold stripHash
      exact dropWhile_take_dropWhile _ s.data 6
    unfold hexToRgb
    rw [hstrip, pySlice_take6 _ 0 2 (by omega), pySlice_take6 _ 2 4 (by omega),
      pySlice_take6 _ 4 6 (by omega)]
  · intro s1 s2 tol h
    unfold colorsMatch
    rw [h]

theorem c9_hex_validation_amended_witness :
    (stripHash "FF").length ≤ 4 ∧ hexToRgb "FF" = none ∧
      hexToRgb "AABBCCDD"
        = hexToRgb (String.mk ((stripHash "AABBCCDD").take 6)) ∧
      hexToRgb "XY" = none ∧ colorsMatch "XY" "000000" 7 = false :=
  ⟨by decide, c9_hex_validation_amended.1 "FF" (by decide),
    c9_hex_validation_amended.2.1 "AABBCCDD", by decide,
    c9_hex_validation_amended.2.2 "XY" "000000" 7 (by decide)⟩

theorem optDistLE_none (x : Option ℚ) : optDistLE x none := by
  cases x <;> trivial

/-- **C1 (counterexample).**  The claim states that for every `k ≥ 1` the
k-nearest lookup returns exactly `min(k, bank_size)` entries, every returned
index being a valid bank index.  At `k = 1` the call raises `TypeError`
instead (scipy squeezes the `k` dimension and `zip` is handed numpy
scalars), returning nothing at all.  With a bank of one trajectory and
`k = 2`, scipy's query
(as wrapped untouched by `find_k_nearest_paths`) returns **2** entries, not
`min(2,1) = 1`, and the second entry carries the out-of-range path index `1`
with infinite distance. -/
theorem c1_knn_padding_counterexample :
    findKNearestPaths [((0 : ℚ), 0)] (0, 0) 1 = none ∧
      findKNearestPaths [((0 : ℚ), 0)] (0, 0) 2
        = some (kdQueryPadded [((0 : ℚ), 0)] (0, 0) 2) ∧
      (kdQueryPadded [((0 : ℚ), 0)] (0, 0) 2).length ≠ min 2 1 ∧
      ((1 : ℕ), (none : Option ℚ)) ∈ kdQueryPadded [((0 : ℚ), 0)] (0, 0) 2 ∧
      ¬ (1 : ℕ) < ([((0 : ℚ), 0)] : List (ℚ × ℚ)).length :=
  ⟨rfl, rfl, by decide, by decide, by decide⟩

/-- **C1 (amended).**  For `k = 1`, `find_k_nearest_paths(d, 1)` raises
`TypeError` (scipy squeezes the `k` dimension, so `zip` is handed numpy
scalars) — it never returns an entry list at all.  For `k ≥ 2` over a
nonempty bank of size `n` it returns exactly `k` entries: the first
`min(k, n)` have valid path indices (`< n`) and finite distances, the whole
list is sorted by non-decreasing distance (infinite padding last), and the
remaining `k - min(k, n)` entries are the scipy padding `(n, ∞)` — callers
get a *padded*, never a short, result. -/
theorem c1_knn_amended (bank : List (ℚ × ℚ)) (d : ℚ × ℚ) (k : ℕ)
    (hk : 2 ≤ k) (hb : 1 ≤ bank.length) :
    findKNearestPaths bank d 1 = none ∧
    findKNearestPaths bank d k = some (kdQueryPadded bank d k) ∧
    (kdQueryPadded bank d k).length = k ∧
    (∀ e ∈ (kdQueryPadded bank d k).take (min k bank.length),
        e.1 < bank.length ∧ e.2 ≠ none) ∧
    (kdQueryPadded bank d k).Pairwise (fun a b => optDistLE a.2 b.2) ∧
    (∀ e ∈ (kdQueryPadded bank d k).drop (min k bank.length),
        e = (bank.length, none)) := by
  have hperm := List.perm_insertionSort distPairLE (bankPairs bank d)
  have hlen : (List.insertionSort distPairLE (bankPairs bank d)).length
      = bank.length := by
    rw [hperm.length_eq]
    simp [bankPairs]
  have hAlen : (((List.insertionSort distPairLE (bankPairs bank d)).take k).map
      (fun e : ℕ × ℚ => (e.1, some e.2))).length = min k bank.length := by
    simp [hlen]
  have hmemA : ∀ e ∈ ((List.insertionSort distPairLE (bankPairs bank d)).take
      k).map (fun e : ℕ × ℚ => (e.1, some e.2)),
      e.1 < bank.length ∧ e.2 ≠ none := by
    intro e he
    rcases List.mem_map.mp he with ⟨x, hx, rfl⟩
    have hx2 : x ∈ List.insertionSort distPairLE (bankPairs bank d) :=
      List.mem_of_mem_take hx
    have hx3 : x ∈ bankPairs bank d := hperm.mem_iff.mp hx2
    rcases List.mem_map.mp hx3 with ⟨i, hi, rfl⟩
    exact ⟨List.mem_range.mp hi, by simp⟩
  refine ⟨rfl, ?_, ?_, ?_, ?_, ?_⟩
  · unfold findKNearestPaths
    have hne : (k == 1) = false := by
      have : k ≠ 1 := by omega
      simpa using this
    rw [hne]
    rfl
  · simp only [kdQueryPadded, List.length_append, hAlen,
      List.length_replicate]
    omega
  · intro e he
    apply hmemA
    have : (kdQueryPadded bank d k).take (min k bank.length)
        = ((List.insertionSort distPairLE (bankPairs bank d)).take k).map
          (fun e : ℕ × ℚ => (e.1, some e.2)) := by
      unfold kdQueryPadded
      rw [← hAlen, List.take_left]
    rwa [this] at he
  · unfold kdQueryPadded
    refine List.pairwise_append.mpr ⟨?_, ?_, ?_⟩
    · refine List.pairwise_map.mpr ?_
      have hs : (List.insertionSort distPairLE (bankPairs bank d)).Pairwise
          distPairLE := List.sorted_insertionSort distPairLE (bankPairs bank d)
      exact (hs.sublist (List.take_sublist _ _)).imp fun h => h
    · exact List.pairwise_replicate.mpr (Or.inr trivial)
    · intro a _ b hb2
      rw [List.eq_of_mem_replicate hb2]
      exact optDistLE_none a.2
  · intro e he
    have : (kdQueryPadded bank d k).drop (min k bank.length)
        = List.replicate (k - bank.length) (bank.length, (none : Option ℚ)) := by
      unfold kdQueryPadded
      rw [← hAlen, List.drop_left]
    rw [this] at he
    exact List.eq_of_mem_replicate he

theorem c1_knn_amended_witness :
    ((2 : ℕ) ≤ 3 ∧ 1 ≤ ([((0 : ℚ), 0), (3, 4)] : List (ℚ × ℚ)).length) ∧
      findKNearestPaths [((0 : ℚ), 0), (3, 4)] (1, 0) 1 = none ∧
      (kdQueryPadded [((0 : ℚ), 0), (3, 4)] (1, 0) 3).length = 3 :=
  ⟨⟨by decide, by decide⟩,
    (c1_knn_amended [((0 : ℚ), 0), (3, 4)] (1, 0) 3 (by decide) (by decide)).1,
    (c1_knn_amended [((0 : ℚ), 0), (3, 4)] (1, 0) 3 (by decide)
      (by decide)).2.2.1⟩

theorem buildIterGo_count_le (seg : ℤ × ℤ → ℤ × ℤ → List (ℤ × ℤ))
    (target : ℤ × ℤ) (tol : ℚ) :
    ∀ (fuel : ℕ) (cur : ℤ × ℤ) (acc : List (ℤ × ℤ)),
      (buildIterGo seg target tol fuel cur acc).2 ≤ fuel := by
  intro fuel
  induction fuel with
  | zero => intro cur acc; simp [buildIterGo]
  | succ n ih =>
    intro cur acc
    simp only [buildIterGo]
    repeat' split
    all_goals
      first
        | exact Nat.zero_le _
        | exact Nat.succ_le_succ (Nat.zero_le n)
        | exact Nat.succ_le_succ (ih _ _)

/-- **C7.**  The iterative composer always terminates with at most
`max_iterations` segment retrievals; and with `max_iterations = 1`, a start
farther than tolerance from the target, and a bank whose retrieved segment is
nonempty, it returns after exactly one appended segment — the accumulated
path is that single segment. -/
theorem c7_iteration_bound (seg : ℤ × ℤ → ℤ × ℤ → List (ℤ × ℤ))
    (start target : ℤ × ℤ) (tol : ℚ) (maxIter : ℕ) :
    iterSegRetrievals seg start target tol maxIter ≤ maxIter ∧
    (maxIter = 1 → withinTol start target tol = false →
      (seg start target).isEmpty = false →
      buildIterativePath seg start target tol 1 = seg start target ∧
        iterSegRetrievals seg start target tol 1 = 1) := by
  constructor
  · exact buildIterGo_count_le seg target tol maxIter start []
  · intro _ h2 h3
    unfold buildIterativePath iterSegRetrievals
    simp [buildIterGo, h2, h3]

theorem c7_iteration_bound_witness :
    withinTol (0, 0) (100, 100) 5 = false ∧
      ([((1 : ℤ), (1 : ℤ))] : List (ℤ × ℤ)).isEmpty = false ∧
      buildIterativePath (fun _ _ => [((1 : ℤ), (1 : ℤ))]) (0, 0) (100, 100) 5 1
        = [((1 : ℤ), (1 : ℤ))] ∧
      iterSegRetrievals (fun _ _ => [((1 : ℤ), (1 : ℤ))]) (0, 0) (100, 100) 5 1
        = 1 :=
  ⟨by decide, by decide,
    ((c7_iteration_bound (fun _ _ => [((1 : ℤ), 1)]) (0, 0) (100, 100) 5 1).2
      rfl (by decide) (by decide)).1,
    ((c7_iteration_bound (fun _ _ => [((1 : ℤ), 1)]) (0, 0) (100, 100) 5 1).2
      rfl (by decide) (by decide)).2⟩

/-- **C8.**  When the start equals the target (distance 0 ≤ tolerance, for
any nonnegative tolerance and at least one allowed iteration), the iterative
composer terminates in its first iteration, appending the target itself to
the (empty) accumulated path: the result is the single-point path `[target]`,
with zero segment retrievals. -/
theorem c8_zero_displacement (seg : ℤ × ℤ → ℤ × ℤ → List (ℤ × ℤ))
    (pos : ℤ × ℤ) (tol : ℚ) (maxIter : ℕ) (h1 : 1 ≤ maxIter) (h2 : 0 ≤ tol) :
    buildIterativePath seg pos pos tol maxIter = [pos] ∧
      iterSegRetrievals seg pos pos tol maxIter = 0 := by
  have hz : posDistSq pos pos = 0 := by unfold posDistSq; ring
  have hw : withinTol pos pos tol = true := by
    unfold withinTol
    rw [hz]
    simp [Rat.num_nonneg.mpr h2, sq_nonneg tol.num]
  obtain ⟨m, rfl⟩ : ∃ m, maxIter = m + 1 :=
    ⟨maxIter - 1, by omega⟩
  unfold buildIterativePath iterSegRetrievals buildIterGo
  simp [hw]

theorem c8_zero_displacement_witness :
    (1 : ℕ) ≤ 5 ∧ (0 : ℚ) ≤ 10 ∧
      buildIterativePath (fun _ _ => []) ((7 : ℤ), (9 : ℤ)) ((7 : ℤ), (9 : ℤ))
        10 5 = [((7 : ℤ), (9 : ℤ))] :=
  ⟨by decide, by decide,
    (c8_zero_displacement (fun _ _ => []) (7, 9) 10 5 (by decide) (by decide)).1⟩

theorem smoothPath_getElem (path : List (ℚ × ℚ)) (h : ¬ path.length < 3)
    (i : ℕ) (hi : i < path.length) :
    (smoothPath path)[i]? = some (avgPoint (smoothWindow path i)) := by
  unfold smoothPath
  rw [if_neg h, List.getElem?_map, List.getElem?_range hi]
  rfl

theorem buildSinglePath_getElem (start : ℤ × ℤ) (path : List (ℚ × ℚ))
    (h : ¬ path.length < 3) (i : ℕ) (hi : i < path.length) :
    (buildSinglePath start path true)[i]? =
      some (pyTrunc ((start.1 : ℚ) + (avgPoint (smoothWindow path i)).1),
            pyTrunc ((start.2 : ℚ) + (avgPoint (smoothWindow path i)).2)) := by
  unfold buildSinglePath
  rw [if_pos rfl, List.getElem?_map, smoothPath_getElem path h i hi]
  rfl

theorem buildSinglePath_smooth_length (start : ℤ × ℤ) (path : List (ℚ × ℚ)) :
    (buildSinglePath start path true).length = path.length := by
  unfold buildSinglePath
  rw [if_pos rfl]
  unfold smoothPath
  split <;> simp

/-- **C10 (counterexample).**  The claim asserts that for *every* trajectory
of ≥ 3 points whose first point differs from the average of its first two
points, the composed absolute path starts away from the requested start and
its net displacement differs from the stored one.  For the trajectory
`[(0,0), (1,0), (0,0)]` from start `(0,0)` the claim's hypotheses hold
(first point `(0,0)` ≠ average `(1/2, 0)`), yet Python `int()` truncation
erases the sub-pixel smoothing shift: the returned path starts exactly at
`(0,0)` = start, and its net displacement `(0,0)` equals the stored
displacement `(0,0)`.  Both "differs" conclusions fail. -/
theorem c10_smoothing_counterexample :
    3 ≤ ([((0 : ℚ), (0 : ℚ)), (1, 0), (0, 0)] : List (ℚ × ℚ)).length ∧
    ([((0 : ℚ), (0 : ℚ)), (1, 0), (0, 0)] : List (ℚ × ℚ)).headD (0, 0)
        ≠ avgPoint (([((0 : ℚ), (0 : ℚ)), (1, 0), (0, 0)] : List (ℚ × ℚ)).take 2) ∧
    (buildSinglePath (0, 0) [((0 : ℚ), (0 : ℚ)), (1, 0), (0, 0)] true).headD (0, 0)
        = ((0 : ℤ), (0 : ℤ)) ∧
    netDisp (buildSinglePath (0, 0) [((0 : ℚ), (0 : ℚ)), (1, 0), (0, 0)] true)
        = ((0 : ℤ), (0 : ℤ)) ∧
    storedDisplacement [((0 : ℚ), (0 : ℚ)), (1, 0), (0, 0)] = ((0 : ℚ), (0 : ℚ)) := by
  refine ⟨by decide, ?_, ?_, ?_, by simp [storedDisplacement]⟩
  · intro hq
    have h1 := congrArg Prod.fst hq
    simp [avgPoint] at h1
  · simp [buildSinglePath, smoothPath, smoothWindow, avgPoint, pyTrunc,
      List.range_succ]
    norm_num
  · simp [netDisp, buildSinglePath, smoothPath, smoothWindow, avgPoint, pyTrunc,
      List.range_succ]
    norm_num

/-- **C10 (amended).**  With smoothing enabled, for every trajectory of at
least 3 points the composed absolute path's first point is the Python-`int`
truncation of `start + average(first two points)` and its last point is the
truncation of `start + average(last two points)`.  Endpoints are therefore
not preserved in general — the first point differs from the requested start
exactly when this truncation moves away from `start`, and likewise the net
displacement differs from the stored displacement exactly when the truncated
endpoint averages do — but sub-pixel smoothing shifts can be erased by the
`int()` truncation, so the original universally-quantified "differs" claim
fails. -/
theorem c10_smoothing_amended (start : ℤ × ℤ) (path : List (ℚ × ℚ))
    (h : 3 ≤ path.length) :
    (buildSinglePath start path true).headD (0, 0)
        = (pyTrunc ((start.1 : ℚ) + (avgPoint (path.take 2)).1),
           pyTrunc ((start.2 : ℚ) + (avgPoint (path.take 2)).2)) ∧
    (buildSinglePath start path true).getLastD (0, 0)
        = (pyTrunc ((start.1 : ℚ) + (avgPoint (path.drop (path.length - 2))).1),
           pyTrunc ((start.2 : ℚ) + (avgPoint (path.drop (path.length - 2))).2)) := by
  have h3 : ¬ path.length < 3 := by omega
  have hw0 : smoothWindow path 0 = path.take 2 := by
    unfold smoothWindow
    have hm : min path.length 2 = 2 := by omega
    simp [hm]
  have hwl : smoothWindow path (path.length - 1) = path.drop (path.length - 2) := by
    unfold smoothWindow
    have h1 : path.length - 1 - 1 = path.length - 2 := by omega
    have h2 : min path.length (path.length - 1 + 2) = path.length := by omega
    rw [h1, h2]
    have h4 : path.length - (path.length - 2) = 2 := by omega
    rw [h4]
    have h5 : (path.drop (path.length - 2)).length ≤ 2 := by
      simp
      omega
    exact List.take_of_length_le h5
  constructor
  · have hg := buildSinglePath_getElem start path h3 0 (by omega)
    rw [hw0] at hg
    rw [List.headD_eq_head?_getD, List.head?_eq_getElem?, hg]
    rfl
  · have hg := buildSinglePath_getElem start path h3 (path.length - 1) (by omega)
    rw [hwl] at hg
    rw [List.getLastD_eq_getLast?, List.getLast?_eq_getElem?,
      buildSinglePath_smooth_length, hg]
    rfl

theorem c10_smoothing_amended_witness :
    3 ≤ ([((0 : ℚ), (0 : ℚ)), (4, 0), (0, 0)] : List (ℚ × ℚ)).length ∧
      (buildSinglePath (0, 0) [((0 : ℚ), (0 : ℚ)), (4, 0), (0, 0)] true).headD (0, 0)
        = (pyTrunc ((0 : ℚ) +
            (avgPoint (([((0 : ℚ), (0 : ℚ)), (4, 0), (0, 0)] : List (ℚ × ℚ)).take 2)).1),
           pyTrunc ((0 : ℚ) +
            (avgPoint (([((0 : ℚ), (0 : ℚ)), (4, 0), (0, 0)] : List (ℚ × ℚ)).take 2)).2)) :=
  ⟨by decide,
    (c10_smoothing_amended (0, 0) [((0 : ℚ), (0 : ℚ)), (4, 0), (0, 0)] (by decide)).1⟩

theorem growRec_head (cs : List Pix) :
    ∀ (fuel : ℕ) (a : Pix) (t : List Pix),
      (growRec cs fuel (a :: t)).head? = some a := by
  intro fuel
  induction fuel with
  | zero => intro a t; rfl
  | succ n ih =>
    intro a t
    have hstep : growStep cs (a :: t)
        = a :: (t ++ cs.filter fun q =>
            !(a :: t).contains q && (a :: t).any fun p => chebNear p q 1) := by
      unfold growStep
      rw [List.cons_append]
    show (growRec cs n (growStep cs (a :: t))).head? = some a
    rw [hstep]
    exact ih a _

theorem growRec_mem (cs : List Pix) :
    ∀ (fuel : ℕ) (acc : List Pix) (x : Pix),
      x ∈ growRec cs fuel acc → x ∈ acc ∨ x ∈ cs := by
  intro fuel
  induction fuel with
  | zero => intro acc x hx; exact Or.inl hx
  | succ n ih =>
    intro acc x hx
    have hx2 : x ∈ growRec cs n (growStep cs acc) := hx
    rcases ih _ x hx2 with h | h
    · unfold growStep at h
      rcases List.mem_append.mp h with h1 | h1
      · exact Or.inl h1
      · exact Or.inr (List.mem_of_mem_filter h1)
    · exact Or.inr h

theorem componentsGo_subMask (m : Pix → Bool) (W H : ℕ) :
    ∀ (cells : List Pix) (acc : List (List Pix)),
      (∀ c ∈ cells, c ∈ maskCells m W H) →
      (∀ l ∈ acc, ∀ x ∈ l, x ∈ maskCells m W H) →
      ∀ l ∈ componentsGo m W H cells acc, ∀ x ∈ l, x ∈ maskCells m W H := by
  intro cells
  induction cells with
  | nil => intro acc _ hacc; simpa [componentsGo] using hacc
  | cons c rest ih =>
    intro acc hcells hacc
    simp only [componentsGo]
    split
    · exact ih acc (fun d hd => hcells d (List.mem_cons_of_mem c hd)) hacc
    · apply ih
      · exact fun d hd => hcells d (List.mem_cons_of_mem c hd)
      · intro l hl x hx
        rcases List.mem_append.mp hl with h1 | h1
        · exact hacc l h1 x hx
        · have hl2 : l = component m W H c := by simpa using h1
          subst hl2
          unfold component at hx
          rcases growRec_mem _ _ _ x hx with h2 | h2
          · have hx2 : x = c := by simpa using h2
            subst hx2
            exact hcells x (List.mem_cons_self x rest)
          · exact h2

theorem components_subMask (m : Pix → Bool) (W H : ℕ) :
    ∀ l ∈ components m W H, ∀ x ∈ l, x ∈ maskCells m W H :=
  componentsGo_subMask m W H (maskCells m W H) [] (fun _ h => h) (by simp)

theorem componentsGo_seed (m : Pix → Bool) (W H : ℕ) :
    ∀ (cells : List Pix) (acc : List (List Pix)),
      (∀ i, i < acc.length → ∃ s : Pix, (acc.getD i []).head? = some s ∧
        ∀ j, j < i → s ∉ acc.getD j []) →
      ∀ i, i < (componentsGo m W H cells acc).length →
        ∃ s : Pix, ((componentsGo m W H cells acc).getD i []).head? = some s ∧
          ∀ j, j < i → s ∉ (componentsGo m W H cells acc).getD j [] := by
  intro cells
  induction cells with
  | nil => intro acc hacc; simpa [componentsGo] using hacc
  | cons c rest ih =>
    intro acc hacc
    simp only [componentsGo]
    split
    · exact ih acc hacc
    · rename_i hc
      apply ih
      intro i hi
      have hlen : (acc ++ [component m W H c]).length = acc.length + 1 := by simp
      rw [hlen] at hi
      by_cases hlt : i < acc.length
      · rcases hacc i hlt with ⟨s, hs1, hs2⟩
        refine ⟨s, ?_, ?_⟩
        · rw [List.getD_eq_getElem?_getD, List.getElem?_append_left hlt,
            ← List.getD_eq_getElem?_getD]
          exact hs1
        · intro j hj
          rw [List.getD_eq_getElem?_getD, List.getElem?_append_left (by omega),
            ← List.getD_eq_getElem?_getD]
          exact hs2 j hj
      · have hieq : i = acc.length := by omega
        subst hieq
        refine ⟨c, ?_, ?_⟩
        · rw [List.getD_eq_getElem?_getD,
            List.getElem?_append_right (le_refl acc.length)]
          simpa using growRec_head (maskCells m W H) (W * H) c []
        · intro j hj hmem
          rw [List.getD_eq_getElem?_getD, List.getElem?_append_left hj,
            ← List.getD_eq_getElem?_getD] at hmem
          apply hc
          have hjmem : acc.getD j [] ∈ acc := by
            have hg : acc.getD j [] = acc[j] := by
              simp [List.getD_eq_getElem?_getD, List.getElem?_eq_getElem hj]
            rw [hg]
            exact List.getElem_mem hj
          have hmf : c ∈ acc.flatten :=
            List.mem_flatten.mpr ⟨acc.getD j [], hjmem, hmem⟩
          simpa using hmf

theorem components_seed (m : Pix → Bool) (W H : ℕ) :
    ∀ i, i < (components m W H).length →
      ∃ s : Pix, ((components m W H).getD i []).head? = some s ∧
        ∀ j, j < i → s ∉ (components m W H).getD j [] :=
  componentsGo_seed m W H (maskCells m W H) []
    (by intro i hi; simp at hi)

theorem getD_mem_of_lt {α : Type} (l : List α) (i : ℕ) (d : α)
    (h : i < l.length) : l.getD i d ∈ l := by
  have hg : l.getD i d = l[i] := by
    simp [List.getD_eq_getElem?_getD, List.getElem?_eq_getElem h]
  rw [hg]
  exact List.getElem_mem h

theorem oldLabel_mask (m : Pix → Bool) (W H : ℕ) (p : Pix)
    (h : oldLabel m W H p ≠ 0) : m p = true ∧ p ∈ cellsOf W H := by
  cases hfi : firstIdx (fun c => c.contains p) (components m W H) with
  | none => exfalso; apply h; unfold oldLabel; rw [hfi]
  | some i =>
    rcases firstIdx_some hfi with ⟨hi, hpred⟩
    have hmem : p ∈ (components m W H).getD i [] := by
      have := hpred []
      simpa using this
    have hcomp : (components m W H).getD i [] ∈ components m W H :=
      getD_mem_of_lt _ i [] hi
    have hmk := components_subMask m W H _ hcomp p hmem
    unfold maskCells at hmk
    exact ⟨(List.mem_filter.mp hmk).2, (List.mem_filter.mp hmk).1⟩

theorem oldLabel_attains (m : Pix → Bool) (W H : ℕ) (l : ℕ)
    (h1 : 1 ≤ l) (h2 : l ≤ (components m W H).length) :
    ∃ s : Pix, oldLabel m W H s = l := by
  rcases components_seed m W H (l - 1) (by omega) with ⟨s, hs1, hs2⟩
  have hmem : s ∈ (components m W H).getD (l - 1) [] :=
    List.mem_of_mem_head? (by rw [hs1]; rfl)
  have hfi : firstIdx (fun c => c.contains s) (components m W H)
      = some (l - 1) := by
    apply firstIdx_eq_of (d := []) (by omega)
    · simpa using hmem
    · intro j hj
      exact eq_false_of_ne_true fun hcon => hs2 j hj (by simpa using hcon)
  refine ⟨s, ?_⟩
  unfold oldLabel
  rw [hfi]
  show l - 1 + 1 = l
  omega

theorem survivingLabels_nodup (m : Pix → Bool) (W H f : ℕ) :
    (survivingLabels m W H f).Nodup :=
  List.Nodup.filter _ (List.nodup_range' _ _)

theorem firstIdx_beq_self (L : List ℕ) (hnd : L.Nodup) (i : ℕ)
    (hi : i < L.length) :
    firstIdx (fun x => x == L.getD i 0) L = some i := by
  apply firstIdx_eq_of (d := 0) hi
  · simp
  · intro j hj
    have hjlt : j < L.length := by omega
    have h1 : L.getD j 0 = L[j] := by
      simp [List.getD_eq_getElem?_getD, List.getElem?_eq_getElem hjlt]
    have h2 : L.getD i 0 = L[i] := by
      simp [List.getD_eq_getElem?_getD, List.getElem?_eq_getElem hi]
    have hne : L[j] ≠ L[i] := by
      intro he
      have := (List.Nodup.getElem_inj_iff hnd).mp he
      omega
    rw [h1, h2]
    simpa using hne

/-- **C4 (counterexample).**  The claim's threshold `base_threshold / f²`
read as exact division is wrong: for `f = 23` the code's Python floor
division gives `1000 // 529 = 1`, so a single-pixel blob (pixel count `1 <
1000/529 ≈ 1.89`) is *not* discarded — on a 1×1 all-target mask it survives
with label 1. -/
theorem c4_threshold_counterexample :
    ((bincount (fun p => p.1 == 0 && p.2 == 0) 1 1 1 : ℚ) < 1000 / (23 * 23 : ℚ)) ∧
      minPixels 23 ≤ bincount (fun p => p.1 == 0 && p.2 == 0) 1 1 1 ∧
      newLabel (fun p => p.1 == 0 && p.2 == 0) 1 1 23 (0, 0) = 1 := by
  have hb : bincount (fun p => p.1 == 0 && p.2 == 0) 1 1 1 = 1 := by decide
  refine ⟨?_, ?_, ?_⟩
  · rw [hb]; norm_num
  · decide
  · decide

/-- **C4 (amended).**  With the threshold read as the code's integer floor
division `1000 // f²`: every pixel of a surviving blob belongs to an
original blob of pixel count at least `1000 // f²`; every blob strictly
below that count is relabelled to background; background (non-mask) pixels
keep label 0; every relabelled value is at most the surviving blob count N;
and every label in `1..N` is attained — the labels are exactly the dense
range `1..N`. -/
theorem c4_blob_filter_amended (m : Pix → Bool) (W H f : ℕ) (hf : 1 ≤ f) :
    (∀ p : Pix, newLabel m W H f p ≠ 0 →
        minPixels f ≤ bincount m W H (oldLabel m W H p)) ∧
    (∀ l : ℕ, bincount m W H l < minPixels f →
        ∀ p : Pix, oldLabel m W H p = l → newLabel m W H f p = 0) ∧
    (∀ p : Pix, m p = false → newLabel m W H f p = 0) ∧
    (∀ p : Pix, newLabel m W H f p ≤ validBlobCount m W H f) ∧
    (∀ j : ℕ, 1 ≤ j → j ≤ validBlobCount m W H f →
        ∃ p : Pix, newLabel m W H f p = j) := by
  refine ⟨?_, ?_, ?_, ?_, ?_⟩
  · intro p hnz
    cases hfi : firstIdx (fun l => l == oldLabel m W H p)
        (survivingLabels m W H f) with
    | none => exfalso; apply hnz; unfold newLabel; rw [hfi]
    | some i =>
      rcases firstIdx_some hfi with ⟨hi, hpred⟩
      have heq : (survivingLabels m W H f).getD i 0 = oldLabel m W H p := by
        have := hpred 0
        simpa using this
      have hmem : oldLabel m W H p ∈ survivingLabels m W H f := by
        rw [← heq]; exact getD_mem_of_lt _ i 0 hi
      have := (List.mem_filter.mp hmem).2
      simpa using this
  · intro l hlt p hol
    have hnone : firstIdx (fun x => x == oldLabel m W H p)
        (survivingLabels m W H f) = none := by
      apply firstIdx_none
      intro x hx
      have hxs : minPixels f ≤ bincount m W H x := by
        have := (List.mem_filter.mp hx).2
        simpa using this
      have hxl : x ≠ oldLabel m W H p := by
        intro he; rw [he, hol] at hxs; omega
      simpa using hxl
    unfold newLabel
    rw [hnone]
  · intro p hmp
    have h1 : firstIdx (fun c => c.contains p) (components m W H) = none := by
      apply firstIdx_none
      intro c hc
      have hnot : p ∉ c := by
        intro hpc
        have hmk := components_subMask m W H c hc p hpc
        unfold maskCells at hmk
        have := (List.mem_filter.mp hmk).2
        rw [hmp] at this
        exact Bool.false_ne_true this
      exact eq_false_of_ne_true fun hcon => hnot (by simpa using hcon)
    have hol : oldLabel m W H p = 0 := by unfold oldLabel; rw [h1]
    have hnone : firstIdx (fun x => x == oldLabel m W H p)
        (survivingLabels m W H f) = none := by
      apply firstIdx_none
      intro x hx
      have hx1 := (List.mem_filter.mp hx).1
      have hx2 := List.mem_range'_1.mp hx1
      have : x ≠ oldLabel m W H p := by rw [hol]; omega
      simpa using this
    unfold newLabel
    rw [hnone]
  · intro p
    by_cases h0 : newLabel m W H f p = 0
    · rw [h0]; exact Nat.zero_le _
    · cases hfi : firstIdx (fun l => l == oldLabel m W H p)
          (survivingLabels m W H f) with
      | none => exfalso; apply h0; unfold newLabel; rw [hfi]
      | some i =>
        have hlen := (firstIdx_some hfi).1
        have hni : newLabel m W H f p = i + 1 := by unfold newLabel; rw [hfi]
        rw [hni]
        unfold validBlobCount
        omega
  · intro j hj1 hj2
    unfold validBlobCount at hj2
    have hjlt : j - 1 < (survivingLabels m W H f).length := by omega
    have hmem : (survivingLabels m W H f).getD (j - 1) 0
        ∈ survivingLabels m W H f := getD_mem_of_lt _ _ _ hjlt
    have hrange := List.mem_range'_1.mp (List.mem_filter.mp hmem).1
    rcases oldLabel_attains m W H ((survivingLabels m W H f).getD (j - 1) 0)
        (by omega) (by omega) with ⟨s, hs⟩
    refine ⟨s, ?_⟩
    unfold newLabel
    rw [hs, firstIdx_beq_self (survivingLabels m W H f)
      (survivingLabels_nodup m W H f) (j - 1) hjlt]
    show j - 1 + 1 = j
    omega

theorem c4_blob_filter_amended_witness :
    (1 : ℕ) ≤ 1 ∧
      newLabel (fun _ => false) 1 1 1 (0, 0)
        ≤ validBlobCount (fun _ => false) 1 1 1 :=
  ⟨by decide,
    (c4_blob_filter_amended (fun _ => false) 1 1 1 (by decide)).2.2.2.1 (0, 0)⟩

theorem newLabel_pos_mask (m : Pix → Bool) (W H f : ℕ) (p : Pix)
    (h : newLabel m W H f p ≠ 0) : m p = true := by
  cases hfi : firstIdx (fun l => l == oldLabel m W H p)
      (survivingLabels m W H f) with
  | none => exfalso; apply h; unfold newLabel; rw [hfi]
  | some i =>
    rcases firstIdx_some hfi with ⟨hi, hpred⟩
    have heq : (survivingLabels m W H f).getD i 0 = oldLabel m W H p := by
      have := hpred 0
      simpa using this
    have hmem : oldLabel m W H p ∈ survivingLabels m W H f := by
      rw [← heq]; exact getD_mem_of_lt _ i 0 hi
    have hr := List.mem_range'_1.mp (List.mem_filter.mp hmem).1
    have hol : oldLabel m W H p ≠ 0 := by omega
    exact (oldLabel_mask m W H p hol).1

/-- **C3.**  If the raw target-color match mask is nonempty but every
surviving size-filtered blob has at least one exclusion-mask pixel in its
border ring (5×5 dilation minus the blob), then every blob is rejected and
`smart_pixel_select` returns `None` — totally, without raising. -/
theorem c3_exclusion_returns_none (fr : Frame) (rgb : Color) (tol f pick : ℕ)
    (hmask : ∃ p ∈ cellsOf (frameW fr) (frameH fr),
      targetMask fr rgb tol p = true)
    (hring : ∀ i ∈ List.range' 1
        (validBlobCount (targetMask fr rgb tol) (frameW fr) (frameH fr) f),
      ringHasExclusion (targetMask fr rgb tol) (greenMask fr)
        (frameW fr) (frameH fr) f i = true) :
    smartPixelSelect fr rgb tol f pick = none := by
  have hc : candidatePixels (targetMask fr rgb tol) (greenMask fr)
      (frameW fr) (frameH fr) f = [] := by
    unfold candidatePixels
    apply List.filter_eq_nil_iff.mpr
    intro p _ hfil
    unfold filteredMask at hfil
    rcases List.any_eq_true.mp hfil with ⟨i, hi, hband⟩
    have h1 := hring i hi
    rw [h1] at hband
    simp at hband
  unfold smartPixelSelect selectPix
  rw [hc]
  rfl

theorem c3_exclusion_returns_none_witness :
    (∃ p ∈ cellsOf (frameW exFrameC3) (frameH exFrameC3),
        targetMask exFrameC3 (255, 0, 0) 0 p = true) ∧
      (∀ i ∈ List.range' 1
          (validBlobCount (targetMask exFrameC3 (255, 0, 0) 0)
            (frameW exFrameC3) (frameH exFrameC3) 32),
        ringHasExclusion (targetMask exFrameC3 (255, 0, 0) 0)
          (greenMask exFrameC3) (frameW exFrameC3) (frameH exFrameC3) 32 i
          = true) ∧
      smartPixelSelect exFrameC3 (255, 0, 0) 0 32 0 = none :=
  ⟨by decide, by decide,
    c3_exclusion_returns_none exFrameC3 (255, 0, 0) 0 32 0 (by decide)
      (by decide)⟩

theorem list_sum_map_div (l : List ℚ) (t : ℚ) :
    (l.map (· / t)).sum = l.sum / t := by
  induction l with
  | nil => simp
  | cons a as ih => simp [ih, add_div]

/-- **C5.**  For every nonempty candidate set the selection distribution
sums to exactly 1 (both in the normalised branch and in the uniform
fallback), and whenever the total of the computed weights is exactly zero
the fallback substitutes the uniform distribution over the candidates —
no division by zero is performed.  The weight of candidate `(x,y)` is by
construction the decay map applied to
`((x - W//2)/W)² + ((y - H//2)/H)²`, the squared normalised offset from
the frame centre. -/
theorem c5_selection_weights (E : ℚ → ℚ) (W H : ℕ) (cands : List Pix)
    (hne : cands ≠ []) :
    (selectionProbs E W H cands).sum = 1 ∧
    ((selectionWeights E W H cands).sum = 0 →
      selectionProbs E W H cands
        = List.replicate cands.length (1 / (cands.length : ℚ))) := by
  have h1 : cands.length ≠ 0 := by
    intro h
    exact hne (List.length_eq_zero.mp h)
  have hlen : (cands.length : ℚ) ≠ 0 := Nat.cast_ne_zero.mpr h1
  constructor
  · unfold selectionProbs
    split
    · rename_i hpos
      rw [list_sum_map_div]
      exact div_self (ne_of_gt hpos)
    · rw [List.sum_replicate, nsmul_eq_mul, mul_one_div, div_self hlen]
  · intro h0
    unfold selectionProbs
    rw [h0]
    simp

theorem c5_selection_weights_witness :
    ([((0, 0) : Pix)] ≠ []) ∧
      (selectionProbs (fun _ => 1) 1 1 [(0, 0)]).sum = 1 :=
  ⟨by decide, (c5_selection_weights (fun _ => 1) 1 1 [(0, 0)] (by decide)).1⟩

/-- **C6.**  Whenever `smart_pixel_select` returns a coordinate, the sampled
(downsampled-grid) pixel `p` lies in the filtered mask — it belongs to some
surviving valid blob (`newLabel p ≠ 0`) and satisfies the target-color mask,
never background — and the returned coordinate is exactly
`p * f + f // 2` (the identity when `f = 1`, the block centre when
`f > 1`). -/
theorem c6_selected_pixel_valid (fr : Frame) (rgb : Color) (tol f pick : ℕ)
    (c : Pix) (hf : 1 ≤ f)
    (hsel : smartPixelSelect fr rgb tol f pick = some c) :
    ∃ p : Pix,
      filteredMask (targetMask fr rgb tol) (greenMask fr) (frameW fr)
          (frameH fr) f p = true ∧
      newLabel (targetMask fr rgb tol) (frameW fr) (frameH fr) f p ≠ 0 ∧
      targetMask fr rgb tol p = true ∧
      c = (p.1 * f + f / 2, p.2 * f + f / 2) := by
  unfold smartPixelSelect selectPix at hsel
  set C := candidatePixels (targetMask fr rgb tol) (greenMask fr)
    (frameW fr) (frameH fr) f with hC
  by_cases hemp : C.isEmpty
  · rw [if_pos hemp] at hsel
    exact absurd hsel (by simp)
  · rw [if_neg hemp] at hsel
    have hCne : C ≠ [] := by
      intro h
      rw [h] at hemp
      simp at hemp
    have hlen : 0 < C.length := List.length_pos.mpr hCne
    have hmod : pick % C.length < C.length := Nat.mod_lt _ hlen
    refine ⟨C.getD (pick % C.length) (0, 0), ?_, ?_, ?_, ?_⟩
    · have hmem : C.getD (pick % C.length) (0, 0) ∈ C :=
        getD_mem_of_lt _ _ _ hmod
      rw [hC] at hmem
      exact (List.mem_filter.mp hmem).2
    · have hmem : C.getD (pick % C.length) (0, 0) ∈ C :=
        getD_mem_of_lt _ _ _ hmod
      rw [hC] at hmem
      have hfil := (List.mem_filter.mp hmem).2
      unfold filteredMask at hfil
      rcases List.any_eq_true.mp hfil with ⟨i, hi, hband⟩
      have h1 := List.mem_range'_1.mp hi
      have h2 : newLabel (targetMask fr rgb tol) (frameW fr) (frameH fr) f
          (C.getD (pick % C.length) (0, 0)) = i := by
        have hba := hband
        rw [Bool.and_eq_true] at hba
        simpa using hba.1
      omega
    · apply newLabel_pos_mask (targetMask fr rgb tol) (frameW fr) (frameH fr) f
      have hmem : C.getD (pick % C.length) (0, 0) ∈ C :=
        getD_mem_of_lt _ _ _ hmod
      rw [hC] at hmem
      have hfil := (List.mem_filter.mp hmem).2
      unfold filteredMask at hfil
      rcases List.any_eq_true.mp hfil with ⟨i, hi, hband⟩
      have h1 := List.mem_range'_1.mp hi
      have h2 : newLabel (targetMask fr rgb tol) (frameW fr) (frameH fr) f
          (C.getD (pick % C.length) (0, 0)) = i := by
        have hba := hband
        rw [Bool.and_eq_true] at hba
        simpa using hba.1
      omega
    · have hcv := Option.some.inj hsel
      by_cases hf1 : 1 < f
      · rw [if_pos hf1] at hcv
        exact hcv.symm
      · rw [if_neg hf1] at hcv
        have hfe : f = 1 := by omega
        subst hfe
        rw [← hcv]
        simp

theorem c6_selected_pixel_valid_witness :
    (1 : ℕ) ≤ 23 ∧
      smartPixelSelect exFrameC6 (255, 0, 0) 0 23 0 = some (11, 11) ∧
      (∃ p : Pix,
        filteredMask (targetMask exFrameC6 (255, 0, 0) 0) (greenMask exFrameC6)
            (frameW exFrameC6) (frameH exFrameC6) 23 p = true ∧
        newLabel (targetMask exFrameC6 (255, 0, 0) 0) (frameW exFrameC6)
            (frameH exFrameC6) 23 p ≠ 0 ∧
        targetMask exFrameC6 (255, 0, 0) 0 p = true ∧
        (11, 11) = (p.1 * 23 + 23 / 2, p.2 * 23 + 23 / 2)) :=
  ⟨by decide, by decide,
    c6_selected_pixel_valid exFrameC6 (255, 0, 0) 0 23 0 (11, 11) (by decide)
      (by decide)⟩
